import Mathlib

/-!
Verification of the Minesweeper knowledge-based inference engine
(class Sentence and class MinesweeperAI of minesweeper.py).

The embedding is shallow: Python sets become Finset, the Python list
holding the knowledge base becomes a Lean List (order and duplicates
preserved), integer counts become Int, and the unbounded while-loop of
add_knowledge becomes a fuel-indexed loop returning Option (none models
a run that has not yet produced an answer within the given fuel).
Methods that mutate self become functions from state to state.
-/

/-- A board cell, a (row, column) pair of integers. -/
abbrev Cell := ℤ × ℤ

/-- Embedding of class Sentence: a set of cells and a count of how many
of them are mines. -/
structure Sentence where
  cells : Finset Cell
  count : ℤ

/-- Structural equality of sentences, Sentence.__eq__: same cell set and
same count. The instance is written with decidable_of_iff so that it
evaluates by kernel reduction on concrete sentences. -/
instance : DecidableEq Sentence := fun a b =>
  decidable_of_iff (a.cells = b.cells ∧ a.count = b.count)
    (by cases a; cases b; simp [Sentence.mk.injEq])

/-- Sentence.known_mines: the cells are all mines when the count equals
the number of cells and the count is nonzero (Python truthiness of
self.count). -/
def Sentence.known_mines (s : Sentence) : Finset Cell :=
  if s.count = (s.cells.card : ℤ) ∧ s.count ≠ 0 then s.cells else ∅

/-- Sentence.known_safes: the cells are all safe when the count is zero
(Python falsiness of self.count). -/
def Sentence.known_safes (s : Sentence) : Finset Cell :=
  if s.count = 0 then s.cells else ∅

/-- Sentence.mark_mine: if the cell is in the sentence, remove it and
decrement the count. -/
def Sentence.mark_mine (s : Sentence) (c : Cell) : Sentence :=
  if c ∈ s.cells then ⟨s.cells.erase c, s.count - 1⟩ else s

/-- Sentence.mark_safe: if the cell is in the sentence, remove it,
leaving the count unchanged. -/
def Sentence.mark_safe (s : Sentence) (c : Cell) : Sentence :=
  if c ∈ s.cells then ⟨s.cells.erase c, s.count⟩ else s

/-- The state of class MinesweeperAI: board dimensions, the three
classification sets and the knowledge base (a Python list). -/
structure AIState where
  height : ℕ
  width : ℕ
  moves_made : Finset Cell
  mines : Finset Cell
  safes : Finset Cell
  knowledge : List Sentence

/-- Componentwise decidable equality of engine states, again written to
evaluate by kernel reduction. -/
instance : DecidableEq AIState := fun a b =>
  decidable_of_iff
    (a.height = b.height ∧ a.width = b.width ∧ a.moves_made = b.moves_made ∧
      a.mines = b.mines ∧ a.safes = b.safes ∧ a.knowledge = b.knowledge)
    (by cases a; cases b; simp [AIState.mk.injEq, and_assoc])

/-- Decidable equality on optional engine states that evaluates by
kernel reduction (the derived Option instance blocks on Eq.rec). -/
instance : DecidableEq (Option AIState) := fun a b =>
  match a, b with
  | none, none => isTrue rfl
  | some x, some y => decidable_of_iff (x = y) (by simp)
  | none, some _ => isFalse (by simp)
  | some _, none => isFalse (by simp)

/-- Decidable equality on optional cells that evaluates by kernel
reduction. -/
instance : DecidableEq (Option Cell) := fun a b =>
  match a, b with
  | none, none => isTrue rfl
  | some x, some y => decidable_of_iff (x = y) (by simp)
  | none, some _ => isFalse (by simp)
  | some _, none => isFalse (by simp)

/-- MinesweeperAI.__init__. -/
def AIState.init (height width : ℕ) : AIState :=
  ⟨height, width, ∅, ∅, ∅, []⟩

/-- MinesweeperAI.mark_mine: add the cell to mines and update every
sentence of the knowledge base. -/
def AIState.markMine (st : AIState) (c : Cell) : AIState :=
  { st with
    mines := insert c st.mines
    knowledge := st.knowledge.map (fun s => s.mark_mine c) }

/-- MinesweeperAI.mark_safe: add the cell to safes and update every
sentence of the knowledge base. -/
def AIState.markSafe (st : AIState) (c : Cell) : AIState :=
  { st with
    safes := insert c st.safes
    knowledge := st.knowledge.map (fun s => s.mark_safe c) }

/-- The nine positions scanned by the double loop of add_knowledge
(and of Minesweeper.nearby_mines), in Python iteration order; the
scanned square includes the revealed cell itself. -/
def neighborCells (c : Cell) : List Cell :=
  [(c.1 - 1, c.2 - 1), (c.1 - 1, c.2), (c.1 - 1, c.2 + 1),
   (c.1, c.2 - 1), (c.1, c.2), (c.1, c.2 + 1),
   (c.1 + 1, c.2 - 1), (c.1 + 1, c.2), (c.1 + 1, c.2 + 1)]

/-- The neighbor scan of add_knowledge step 3: accumulate the new
sentence's cells and adjust its count. Known safes are skipped; known
mines are skipped with the count decremented; remaining in-bounds cells
are collected. -/
def ingestScan (st : AIState) : List Cell → Finset Cell × ℤ → Finset Cell × ℤ
  | [], acc => acc
  | p :: rest, (nb, cnt) =>
    if p ∈ st.safes then ingestScan st rest (nb, cnt)
    else if p ∈ st.mines then ingestScan st rest (nb, cnt - 1)
    else if 0 ≤ p.1 ∧ p.1 < (st.height : ℤ) ∧ 0 ≤ p.2 ∧ p.2 < (st.width : ℤ) then
      ingestScan st rest (insert p nb, cnt)
    else ingestScan st rest (nb, cnt)

/-- The union of known_mines over the knowledge base (add_knowledge
step 4, mine_cells accumulation). -/
def harvestMines (kb : List Sentence) : Finset Cell :=
  kb.foldl (fun acc s => acc ∪ s.known_mines) ∅

/-- The union of known_safes over the knowledge base (add_knowledge
step 4, safe_cells accumulation). -/
def harvestSafes (kb : List Sentence) : Finset Cell :=
  kb.foldl (fun acc s => acc ∪ s.known_safes) ∅

/-- The net effect of the loop for mine in mine_cells: self.mark_mine(mine).
Python iterates the set in unspecified order; each engine-level mark_mine
adds the cell to mines and, in every sentence that contains it, removes it
and decrements the count, so the cumulative effect is order-independent:
mines gains S, and every sentence loses its cells in S with the count
decremented once per removed cell. -/
def markMineSet (st : AIState) (S : Finset Cell) : AIState :=
  { st with
    mines := st.mines ∪ S
    knowledge := st.knowledge.map
      (fun s => ⟨s.cells \ S, s.count - ((s.cells ∩ S).card : ℤ)⟩) }

/-- The net effect of the loop for safe in safe_cells: self.mark_safe(safe):
safes gains S and every sentence loses its cells in S, counts unchanged. -/
def markSafeSet (st : AIState) (S : Finset Cell) : AIState :=
  { st with
    safes := st.safes ∪ S
    knowledge := st.knowledge.map (fun s => ⟨s.cells \ S, s.count⟩) }

/-- Marking phase of one pass of the add_knowledge loop: harvest
mine_cells and safe_cells from the current knowledge base, mark each of
them, and report whether either harvest was nonempty (Python sets new_data
when mine_cells or safe_cells is truthy). -/
def markPhase (st : AIState) : AIState × Bool :=
  let mc := harvestMines st.knowledge
  let sc := harvestSafes st.knowledge
  let st1 := markMineSet st mc
  let st2 := markSafeSet st1 sc
  (st2, decide (mc ≠ ∅) || decide (sc ≠ ∅))

/-- Removal of empty sentences: keep exactly the sentences different
from Sentence(set(), 0). -/
def dropEmpties (st : AIState) : AIState :=
  { st with knowledge := st.knowledge.filter (fun s => decide (s ≠ ⟨∅, 0⟩)) }

/-- The ordered pairs of distinct indices (i, j) with i, j < n, in the
order produced by itertools.permutations(lst, 2). -/
def pairIdx (n : ℕ) : List (ℕ × ℕ) :=
  (List.range n).flatMap (fun i =>
    ((List.range n).filter (fun j => decide (j ≠ i))).map (fun j => (i, j)))

/-- One step of the subset-derivation loop on the pair of sentences at
positions (i, j) of the snapshot: if the first is a subset of the second,
build the difference sentence and append it unless it is already present
in the accumulated knowledge base. -/
def deriveStep (snapshot : List Sentence) (acc : List Sentence × Bool)
    (ij : ℕ × ℕ) : List Sentence × Bool :=
  match snapshot.get? ij.1, snapshot.get? ij.2 with
  | some s1, some s2 =>
    if s1.cells ⊆ s2.cells then
      let ns : Sentence := ⟨s2.cells \ s1.cells, s2.count - s1.count⟩
      if ns ∈ acc.1 then acc else (acc.1 ++ [ns], true)
    else acc
  | _, _ => acc

/-- Step 5 of add_knowledge: the subset-derivation sweep over all ordered
pairs of distinct positions of the knowledge base snapshot. -/
def subsetDerive (snapshot : List Sentence) : List Sentence × Bool :=
  (pairIdx snapshot.length).foldl (deriveStep snapshot) (snapshot, false)

/-- One full pass of the while-loop of add_knowledge: mark harvested
cells, drop empty sentences, run subset-derivation; the Bool is the
new_data flag accumulated over the pass. -/
def fixpass (st : AIState) : AIState × Bool :=
  let m := markPhase st
  let st2 := dropEmpties m.1
  let d := subsetDerive st2.knowledge
  ({ st2 with knowledge := d.1 }, m.2 || d.2)

/-- The while new_data loop of add_knowledge, with explicit fuel; none
models a run that has not terminated within the given number of passes. -/
def fixLoop : ℕ → AIState → Option AIState
  | 0, _ => none
  | n + 1, st =>
    let p := fixpass st
    if p.2 then fixLoop n p.1 else some p.1

/-- Steps 1 to 3 of MinesweeperAI.add_knowledge: record the move, mark
the cell safe, build the new sentence from the scanned neighborhood and
append it to the knowledge base (the source appends unconditionally,
without checking whether an equal sentence is already present). -/
def ingestPre (st : AIState) (cell : Cell) (count : ℤ) : AIState :=
  let st1 := { st with moves_made := insert cell st.moves_made }
  let st2 := st1.markSafe cell
  let nc := ingestScan st2 (neighborCells cell) (∅, count)
  { st2 with knowledge := st2.knowledge ++ [⟨nc.1, nc.2⟩] }

/-- MinesweeperAI.add_knowledge: the pre-loop steps followed by the
while new_data fixpoint loop. -/
def addKnowledge (fuel : ℕ) (st : AIState) (cell : Cell) (count : ℤ) :
    Option AIState :=
  fixLoop fuel (ingestPre st cell count)

/-- MinesweeperAI.make_safe_move, embedded as a state transformer to make
its read-only contract statable; the choice function stands for
random.choice on the listed candidate set. -/
def makeSafeMove (st : AIState) (choice : Finset Cell → Cell) :
    Option Cell × AIState :=
  let sm := st.safes \ st.moves_made
  if sm = ∅ then (none, st) else (some (choice sm), st)

/-- MinesweeperAI.make_random_move: the while True loop, driven by the
stream of draws produced by random.randrange (so every draw is in
bounds); the loop body returns the draw exactly when it is neither an
already-made move nor a known mine. A none result means the supplied
draw stream was consumed without the loop ever returning. -/
def makeRandomMove (st : AIState) : List (ℕ × ℕ) → Option Cell
  | [] => none
  | d :: rest =>
    let c : Cell := ((d.1 : ℤ), (d.2 : ℤ))
    if c ∉ st.moves_made ∧ c ∉ st.mines then some c
    else makeRandomMove st rest

/-- An externally invoked engine operation, as in the game loop: a call
to add_knowledge (with fuel for its loop), mark_mine, or mark_safe. -/
inductive EngineOp where
  | ingest (cell : Cell) (count : ℤ) (fuel : ℕ)
  | markMine (cell : Cell)
  | markSafe (cell : Cell)
  deriving DecidableEq

/-- Run one engine operation. -/
def runOp (st : AIState) : EngineOp → Option AIState
  | .ingest cell count fuel => addKnowledge fuel st cell count
  | .markMine c => some (st.markMine c)
  | .markSafe c => some (st.markSafe c)

/-- Run a sequence of engine operations. -/
def runOps : AIState → List EngineOp → Option AIState
  | st, [] => some st
  | st, op :: rest =>
    match runOp st op with
    | none => none
    | some st1 => runOps st1 rest

/-- C7: known_mines returns the cell set exactly when the count is
positive and equals the number of cells, otherwise the empty set; in
particular the degenerate sentence with empty cells and count zero is not
reported all-mines. Dually known_safes returns the cell set exactly when
the count is zero, otherwise the empty set. -/
theorem C7_known_mines_safes_characterization :
    (∀ s : Sentence,
      s.known_mines =
        if 0 < s.count ∧ s.count = (s.cells.card : ℤ) then s.cells else ∅) ∧
    (∀ s : Sentence,
      s.known_safes = if s.count = 0 then s.cells else ∅) ∧
    Sentence.known_mines ⟨∅, 0⟩ = ∅ := by
  refine ⟨fun s => ?_, fun s => rfl, rfl⟩
  rcases s with ⟨cells, count⟩
  simp only [Sentence.known_mines]
  have hcard : (0 : ℤ) ≤ (cells.card : ℤ) := Int.natCast_nonneg _
  by_cases h1 : count = (cells.card : ℤ)
  · by_cases h2 : count = 0
    · rw [if_neg (by tauto), if_neg (by omega)]
    · rw [if_pos ⟨h1, h2⟩, if_pos ⟨by omega, h1⟩]
  · rw [if_neg (by tauto), if_neg (by tauto)]

/-- The engine state after add_knowledge((0, 0), 1) on a fresh 2 by 2
board: one sentence over the three unclassified neighbors of (0, 0). -/
def st22a : AIState :=
  ⟨2, 2, {((0:ℤ),(0:ℤ))}, ∅, {((0:ℤ),(0:ℤ))},
    [⟨{((0:ℤ),(1:ℤ)), ((1:ℤ),(0:ℤ)), ((1:ℤ),(1:ℤ))}, 1⟩]⟩

/-- The sentence both remaining bottom-row cells, one of which is a mine:
built once by the first add_knowledge call (after (0, 1) is marked safe)
and a second time, structurally equal, by the second call. -/
def dupSentence : Sentence := ⟨{((1:ℤ),(0:ℤ)), ((1:ℤ),(1:ℤ))}, 1⟩

/-- The state reached inside add_knowledge((0, 1), 1) from st22a just
before its fixpoint loop starts: the knowledge base holds two
structurally equal sentences. -/
def st22stuck : AIState :=
  ⟨2, 2, {((0:ℤ),(0:ℤ)), ((0:ℤ),(1:ℤ))}, ∅,
    {((0:ℤ),(0:ℤ)), ((0:ℤ),(1:ℤ))}, [dupSentence, dupSentence]⟩

/-- The two-sentence state above with the derived empty sentence
appended: the fixpoint loop maps st22stuck to this state and then maps
this state to itself, always reporting a change. -/
def st22cycle : AIState :=
  { st22stuck with knowledge := [dupSentence, dupSentence, ⟨∅, 0⟩] }

theorem ingestPre_st22a : ingestPre st22a ((0:ℤ),(1:ℤ)) 1 = st22stuck := by
  decide

theorem fixpass_st22stuck : fixpass st22stuck = (st22cycle, true) := by
  decide

theorem fixpass_st22cycle : fixpass st22cycle = (st22cycle, true) := by
  decide

theorem fixLoop_st22cycle (n : ℕ) : fixLoop n st22cycle = none := by
  induction n with
  | zero => rfl
  | succ n ih => simp only [fixLoop, fixpass_st22cycle]; exact ih

/-- C2 (divergence witness): on a 2 by 2 board with one mine in the
bottom row, the truthful calls add_knowledge((0, 0), 1) then
add_knowledge((0, 1), 1) make the second call's while-loop run forever:
its knowledge base holds two structurally equal sentences, whose
subset-derivation pair re-creates the empty sentence on every pass after
the empty-sentence filter has removed it, so new_data never stays False
and no amount of fuel makes the loop return. -/
theorem C2_fixpoint_loop_diverges :
    addKnowledge 3 (AIState.init 2 2) ((0:ℤ),(0:ℤ)) 1 = some st22a ∧
    ∀ n : ℕ, addKnowledge n st22a ((0:ℤ),(1:ℤ)) 1 = none := by
  refine ⟨by decide, fun n => ?_⟩
  show fixLoop n (ingestPre st22a ((0:ℤ),(1:ℤ)) 1) = none
  rw [ingestPre_st22a]
  cases n with
  | zero => rfl
  | succ n => simp only [fixLoop, fixpass_st22stuck]; exact fixLoop_st22cycle n

/-- A truthful 3 by 3 play (single mine at (1, 1)): two reveals build two
different three-cell sentences, then four engine-level mark_safe calls
shrink both to the same one-cell sentence. -/
def ops33 : List EngineOp :=
  [.ingest ((0:ℤ),(0:ℤ)) 1 2, .ingest ((2:ℤ),(2:ℤ)) 1 2,
   .markSafe ((0:ℤ),(1:ℤ)), .markSafe ((1:ℤ),(0:ℤ)),
   .markSafe ((1:ℤ),(2:ℤ)), .markSafe ((2:ℤ),(1:ℤ))]

/-- The state reached by ops33: the knowledge base holds the sentence
with cell set containing only (1, 1) and count 1 twice. -/
def stDup : AIState :=
  ⟨3, 3, {((0:ℤ),(0:ℤ)), ((2:ℤ),(2:ℤ))}, ∅,
    {((0:ℤ),(0:ℤ)), ((2:ℤ),(2:ℤ)), ((0:ℤ),(1:ℤ)), ((1:ℤ),(0:ℤ)),
      ((1:ℤ),(2:ℤ)), ((2:ℤ),(1:ℤ))},
    [⟨{((1:ℤ),(1:ℤ))}, 1⟩, ⟨{((1:ℤ),(1:ℤ))}, 1⟩]⟩

/-- C3 (counterexample): a sequence of engine operations after which two
structurally equal constraints are simultaneously present in the
knowledge base, refuting the no-duplicates claim at an observation point
between engine operations. -/
theorem C3_no_duplicates_counterexample :
    runOps (AIState.init 3 3) ops33 = some stDup ∧
    stDup.knowledge = [⟨{((1:ℤ),(1:ℤ))}, 1⟩, ⟨{((1:ℤ),(1:ℤ))}, 1⟩] ∧
    ¬ stDup.knowledge.Nodup := by
  refine ⟨by decide, by decide, by decide⟩

theorem deriveStep_nodup (snapshot : List Sentence) (acc : List Sentence × Bool)
    (ij : ℕ × ℕ) (h : acc.1.Nodup) : (deriveStep snapshot acc ij).1.Nodup := by
  unfold deriveStep
  rcases h1 : snapshot.get? ij.1 with _ | s1 <;>
    rcases h2 : snapshot.get? ij.2 with _ | s2 <;> simp [h]
  split
  · split
    · exact h
    · next hns =>
        simp [List.nodup_append, h, hns]
  · exact h

theorem foldl_deriveStep_nodup (snapshot : List Sentence) :
    ∀ (pairs : List (ℕ × ℕ)) (acc : List Sentence × Bool),
      acc.1.Nodup → (pairs.foldl (deriveStep snapshot) acc).1.Nodup := by
  intro pairs
  induction pairs with
  | nil => exact fun acc h => h
  | cons p rest ih =>
      exact fun acc h => ih _ (deriveStep_nodup snapshot acc p h)

/-- C3 (amended): the knowledge base can store structural duplicates —
add_knowledge appends its freshly built sentence without any duplicate
check, and engine-level mark operations can shrink two different
sentences into structurally equal ones — but the subset-derivation step
alone never introduces a duplicate, because it checks value equality
before inserting. -/
theorem C3_derive_dedup_amended (kb : List Sentence) (h : kb.Nodup) :
    (subsetDerive kb).1.Nodup :=
  foldl_deriveStep_nodup kb (pairIdx kb.length) (kb, false) h

/-- Witness for the amended C3 theorem at a concrete duplicate-free
knowledge base on which the derivation step actually inserts a new
sentence. -/
theorem C3_derive_dedup_amended_witness :
    ([⟨{((0:ℤ),(0:ℤ)), ((0:ℤ),(1:ℤ))}, 1⟩, ⟨{((0:ℤ),(0:ℤ))}, 1⟩] :
      List Sentence).Nodup ∧
    (subsetDerive
      [⟨{((0:ℤ),(0:ℤ)), ((0:ℤ),(1:ℤ))}, 1⟩, ⟨{((0:ℤ),(0:ℤ))}, 1⟩]).1.Nodup :=
  ⟨by decide, C3_derive_dedup_amended _ (by decide)⟩

/-- C9: make_safe_move returns a member of safes minus moves_made when
that set is nonempty (random.choice picks an element of the candidate
list), returns none when it is empty, and leaves the engine state
untouched, so repeated calls are side-effect-free. -/
theorem C9_safe_move_contract (st : AIState) (choice : Finset Cell → Cell)
    (hchoice : st.safes \ st.moves_made ≠ ∅ →
      choice (st.safes \ st.moves_made) ∈ st.safes \ st.moves_made) :
    (st.safes \ st.moves_made ≠ ∅ →
      ∃ c, (makeSafeMove st choice).1 = some c ∧
        c ∈ st.safes ∧ c ∉ st.moves_made) ∧
    (st.safes \ st.moves_made = ∅ → (makeSafeMove st choice).1 = none) ∧
    (makeSafeMove st choice).2 = st := by
  refine ⟨fun hne => ?_, fun he => ?_, ?_⟩
  · have hc := hchoice hne
    rw [Finset.mem_sdiff] at hc
    exact ⟨choice (st.safes \ st.moves_made),
      by simp only [makeSafeMove, if_neg hne], hc.1, hc.2⟩
  · simp only [makeSafeMove, if_pos he]
  · by_cases h : st.safes \ st.moves_made = ∅ <;>
      simp only [makeSafeMove, h, if_pos, if_neg, ite_true, ite_false]

/-- Witness for C9 at a concrete state with one unplayed safe cell and a
concrete choice function. -/
theorem C9_safe_move_contract_witness :
    (∃ c, (makeSafeMove ⟨2, 2, ∅, ∅, {((0:ℤ),(0:ℤ))}, []⟩
        (fun _ => ((0:ℤ),(0:ℤ)))).1 = some c ∧
      c ∈ ({((0:ℤ),(0:ℤ))} : Finset Cell) ∧ c ∉ (∅ : Finset Cell)) ∧
    (makeSafeMove ⟨2, 2, ∅, ∅, {((0:ℤ),(0:ℤ))}, []⟩
      (fun _ => ((0:ℤ),(0:ℤ)))).2 = ⟨2, 2, ∅, ∅, {((0:ℤ),(0:ℤ))}, []⟩ := by
  have h := C9_safe_move_contract ⟨2, 2, ∅, ∅, {((0:ℤ),(0:ℤ))}, []⟩
    (fun _ => ((0:ℤ),(0:ℤ))) (fun _ => by decide)
  exact ⟨h.1 (by decide), h.2.2⟩

/-- A 1 by 1 board whose only cell has been played: every in-bounds cell
is in moves_made or mines, so no random move candidate exists. -/
def ex1 : AIState := ⟨1, 1, {((0:ℤ),(0:ℤ))}, ∅, {((0:ℤ),(0:ℤ))}, []⟩

/-- C1 (counterexample): on the exhausted 1 by 1 board the only draw
random.randrange can produce, (0, 0), is rejected by the loop body (it is
in moves_made), so the while True loop of make_random_move never returns:
here 100 consecutive draws are consumed without producing any result, and
no explicit no-such-move value is ever produced. -/
theorem C1_random_move_counterexample :
    (((0:ℤ),(0:ℤ)) ∈ ex1.moves_made ∧ ex1.height = 1 ∧ ex1.width = 1) ∧
    makeRandomMove ex1 (List.replicate 100 ((0:ℕ),(0:ℕ))) = none := by
  exact ⟨by decide, by decide⟩

/-- C1 (amended): when the caller's random stream eventually produces a
cell that is in neither moves_made nor mines, make_random_move returns
the first such cell; but when every in-bounds cell is already played or
a known mine, the loop body rejects every in-bounds draw, so the loop
never returns — unavailability is not signalled by an explicit result. -/
theorem C1_random_move_amended (st : AIState) (draws : List (ℕ × ℕ)) :
    ((∀ c : Cell,
        0 ≤ c.1 ∧ c.1 < (st.height : ℤ) ∧ 0 ≤ c.2 ∧ c.2 < (st.width : ℤ) →
        c ∈ st.moves_made ∨ c ∈ st.mines) →
      (∀ d ∈ draws, d.1 < st.height ∧ d.2 < st.width) →
      makeRandomMove st draws = none) ∧
    ((∃ d ∈ draws,
        ((d.1 : ℤ), (d.2 : ℤ)) ∉ st.moves_made ∧
        ((d.1 : ℤ), (d.2 : ℤ)) ∉ st.mines) →
      ∃ c : Cell, makeRandomMove st draws = some c ∧
        c ∉ st.moves_made ∧ c ∉ st.mines) := by
  induction draws with
  | nil =>
      refine ⟨fun _ _ => rfl, fun h => ?_⟩
      simp at h
  | cons d rest ih =>
      constructor
      · intro hfull hb
        have hd := hb d (List.mem_cons_self d rest)
        have hcl : ((d.1 : ℤ), (d.2 : ℤ)) ∈ st.moves_made ∨
            ((d.1 : ℤ), (d.2 : ℤ)) ∈ st.mines := by
          refine hfull _ ⟨?_, ?_, ?_, ?_⟩ <;>
            simp [Int.ofNat_lt, hd.1, hd.2]
        have hnot : ¬ (((d.1 : ℤ), (d.2 : ℤ)) ∉ st.moves_made ∧
            ((d.1 : ℤ), (d.2 : ℤ)) ∉ st.mines) := by tauto
        simp only [makeRandomMove, if_neg hnot]
        exact ih.1 hfull (fun x hx => hb x (List.mem_cons_of_mem d hx))
      · rintro ⟨e, he, hgood⟩
        by_cases hd : ((d.1 : ℤ), (d.2 : ℤ)) ∉ st.moves_made ∧
            ((d.1 : ℤ), (d.2 : ℤ)) ∉ st.mines
        · exact ⟨_, by simp only [makeRandomMove, if_pos hd], hd.1, hd.2⟩
        · rcases List.mem_cons.mp he with rfl | he2
          · exact absurd hgood hd
          · obtain ⟨c, hc⟩ := ih.2 ⟨e, he2, hgood⟩
            exact ⟨c, by simpa only [makeRandomMove, if_neg hd] using hc.1,
              hc.2.1, hc.2.2⟩

/-- Witness for the amended C1 theorem: the exhausted 1 by 1 board gives
no result on an in-bounds draw stream, and a fresh 1 by 1 board returns
its only cell as soon as it is drawn. -/
theorem C1_random_move_amended_witness :
    makeRandomMove ex1 [((0:ℕ),(0:ℕ))] = none ∧
    ∃ c : Cell, makeRandomMove (AIState.init 1 1) [((0:ℕ),(0:ℕ))] = some c ∧
      c ∉ (AIState.init 1 1).moves_made ∧ c ∉ (AIState.init 1 1).mines := by
  constructor
  · refine (C1_random_move_amended ex1 [((0:ℕ),(0:ℕ))]).1 ?_ (by decide)
    rintro ⟨a, b⟩ ⟨h1, h2, h3, h4⟩
    left
    have hh : ex1.height = 1 := rfl
    have hw : ex1.width = 1 := rfl
    rw [hh] at h2
    rw [hw] at h4
    have ha : a = 0 := by omega
    have hb : b = 0 := by omega
    subst ha
    subst hb
    decide
  · exact (C1_random_move_amended (AIState.init 1 1) [((0:ℕ),(0:ℕ))]).2
      ⟨((0:ℕ),(0:ℕ)), by decide, by decide, by decide⟩

theorem deriveStep_mono (snapshot : List Sentence) (acc : List Sentence × Bool)
    (ij : ℕ × ℕ) (x : Sentence) (hx : x ∈ acc.1) :
    x ∈ (deriveStep snapshot acc ij).1 := by
  unfold deriveStep
  rcases snapshot.get? ij.1 with _ | s1
  · exact hx
  rcases snapshot.get? ij.2 with _ | s2
  · exact hx
  dsimp only
  split
  · split
    · exact hx
    · exact List.mem_append_left _ hx
  · exact hx

theorem foldl_deriveStep_mono (snapshot : List Sentence) :
    ∀ (pairs : List (ℕ × ℕ)) (acc : List Sentence × Bool) (x : Sentence),
      x ∈ acc.1 → x ∈ (pairs.foldl (deriveStep snapshot) acc).1 := by
  intro pairs
  induction pairs with
  | nil => exact fun acc x hx => hx
  | cons p rest ih =>
      exact fun acc x hx => ih _ x (deriveStep_mono snapshot acc p x hx)

theorem deriveStep_inserts (snapshot : List Sentence)
    (acc : List Sentence × Bool) (ij : ℕ × ℕ) (s1 s2 : Sentence)
    (h1 : snapshot.get? ij.1 = some s1) (h2 : snapshot.get? ij.2 = some s2)
    (hsub : s1.cells ⊆ s2.cells) :
    (⟨s2.cells \ s1.cells, s2.count - s1.count⟩ : Sentence) ∈
      (deriveStep snapshot acc ij).1 := by
  unfold deriveStep
  rw [h1, h2]
  dsimp only
  rw [if_pos hsub]
  by_cases hmem :
    (⟨s2.cells \ s1.cells, s2.count - s1.count⟩ : Sentence) ∈ acc.1
  · rw [if_pos hmem]
    exact hmem
  · rw [if_neg hmem]
    exact List.mem_append_right _ (List.mem_singleton.mpr rfl)

theorem foldl_deriveStep_mem (snapshot : List Sentence) (i j : ℕ)
    (s1 s2 : Sentence) (h1 : snapshot.get? i = some s1)
    (h2 : snapshot.get? j = some s2) (hsub : s1.cells ⊆ s2.cells) :
    ∀ (pairs : List (ℕ × ℕ)) (acc : List Sentence × Bool),
      (i, j) ∈ pairs →
      (⟨s2.cells \ s1.cells, s2.count - s1.count⟩ : Sentence) ∈
        (pairs.foldl (deriveStep snapshot) acc).1 := by
  intro pairs
  induction pairs with
  | nil => intro acc h; simp at h
  | cons p rest ih =>
      intro acc hmem
      rcases List.mem_cons.mp hmem with heq | hmem2
      · rw [List.foldl_cons, ← heq]
        exact foldl_deriveStep_mono snapshot rest _ _
          (deriveStep_inserts snapshot acc (i, j) s1 s2 h1 h2 hsub)
      · exact ih _ hmem2

theorem pairIdx_mem (n i j : ℕ) (hi : i < n) (hj : j < n) (hne : j ≠ i) :
    (i, j) ∈ pairIdx n := by
  unfold pairIdx
  simp only [List.mem_flatMap, List.mem_map, List.mem_filter, List.mem_range]
  refine ⟨i, hi, j, ⟨?_, rfl⟩⟩
  simp [hj, hne]

/-- The unreduced two-sentence state of the spec scenario: the sentences
with cells (0,0), (0,1), (0,2) and count 1 and with cells (0,0), (0,1)
and count 1 on a 1 by 3 board. -/
def stABC : AIState :=
  ⟨1, 3, ∅, ∅, ∅,
    [⟨{((0:ℤ),(0:ℤ)), ((0:ℤ),(1:ℤ)), ((0:ℤ),(2:ℤ))}, 1⟩,
     ⟨{((0:ℤ),(0:ℤ)), ((0:ℤ),(1:ℤ))}, 1⟩]⟩

/-- C6: during the fixpoint, for every ordered pair of sentences at
distinct positions whose first component's cells are a subset of the
second's, the difference sentence is present in the knowledge base after
the subset-derivation sweep (inserted there unless an equal sentence
already was); concretely, from the two sentences of stABC one pass
derives the sentence with single cell (0,2) and count 0, and the next
pass puts (0,2) into safes. -/
theorem C6_subset_difference_derivation :
    (∀ (kb : List Sentence) (i j : ℕ) (hi : i < kb.length)
        (hj : j < kb.length), i ≠ j →
      (kb.get ⟨i, hi⟩).cells ⊆ (kb.get ⟨j, hj⟩).cells →
      (⟨(kb.get ⟨j, hj⟩).cells \ (kb.get ⟨i, hi⟩).cells,
        (kb.get ⟨j, hj⟩).count - (kb.get ⟨i, hi⟩).count⟩ : Sentence) ∈
        (subsetDerive kb).1) ∧
    (⟨{((0:ℤ),(2:ℤ))}, 0⟩ : Sentence) ∈ (fixpass stABC).1.knowledge ∧
    ((0:ℤ),(2:ℤ)) ∈ (fixpass (fixpass stABC).1).1.safes := by
  refine ⟨?_, by decide, by decide⟩
  intro kb i j hi hj hne hsub
  exact foldl_deriveStep_mem kb i j _ _ (List.get?_eq_get hi)
    (List.get?_eq_get hj) hsub (pairIdx kb.length) (kb, false)
    (pairIdx_mem kb.length i j hi hj (fun h => hne h.symm))

/-- Witness for C6 at the concrete knowledge base holding the sentences
of the spec scenario, smaller one first. -/
theorem C6_subset_difference_derivation_witness :
    (⟨{((0:ℤ),(2:ℤ))}, 0⟩ : Sentence) ∈
      (subsetDerive
        [⟨{((0:ℤ),(0:ℤ)), ((0:ℤ),(1:ℤ))}, 1⟩,
         ⟨{((0:ℤ),(0:ℤ)), ((0:ℤ),(1:ℤ)), ((0:ℤ),(2:ℤ))}, 1⟩]).1 := by
  have h := C6_subset_difference_derivation.1
    [⟨{((0:ℤ),(0:ℤ)), ((0:ℤ),(1:ℤ))}, 1⟩,
     ⟨{((0:ℤ),(0:ℤ)), ((0:ℤ),(1:ℤ)), ((0:ℤ),(2:ℤ))}, 1⟩]
    0 1 (by decide) (by decide) (by decide) (by decide)
  simpa using h

/-- A cell lies on the board of the given dimensions. -/
def inBoundsHW (h w : ℕ) (c : Cell) : Prop :=
  0 ≤ c.1 ∧ c.1 < (h : ℤ) ∧ 0 ≤ c.2 ∧ c.2 < (w : ℤ)

instance (h w : ℕ) (c : Cell) : Decidable (inBoundsHW h w c) :=
  inferInstanceAs (Decidable (_ ∧ _ ∧ _ ∧ _))

/-- Minesweeper.nearby_mines for a board whose mine set is M: the number
of cells in the scanned square that differ from the cell itself, lie on
the board, and hold a mine. -/
def nearbyMines (h w : ℕ) (M : Finset Cell) (cell : Cell) : ℤ :=
  (((neighborCells cell).filter (fun p =>
    decide (p ≠ cell) && decide (inBoundsHW h w p) && decide (p ∈ M))).length : ℤ)

/-- A sentence is sound for the mine set M when exactly count of its
cells are mines — the intended reading of a Sentence. -/
def SoundS (M : Finset Cell) (s : Sentence) : Prop :=
  ((s.cells ∩ M).card : ℤ) = s.count

instance (M : Finset Cell) (s : Sentence) : Decidable (SoundS M s) :=
  inferInstanceAs (Decidable (_ = _))

/-- An engine state is sound for the mine set M: every classified mine
is a mine, every classified safe is not, and every sentence of the
knowledge base is sound. -/
def Sound (M : Finset Cell) (st : AIState) : Prop :=
  (∀ c ∈ st.mines, c ∈ M) ∧ (∀ c ∈ st.safes, c ∉ M) ∧
    ∀ s ∈ st.knowledge, SoundS M s

instance (M : Finset Cell) (st : AIState) : Decidable (Sound M st) :=
  inferInstanceAs (Decidable (_ ∧ _ ∧ _))

/-- An operation carries truthful information about the board with mine
set M and the given dimensions: add_knowledge receives a non-mine cell
together with its true nearby-mine count, and the mark operations receive
correctly classified cells. -/
def TruthfulOp (M : Finset Cell) (h w : ℕ) : EngineOp → Prop
  | .ingest cell count _ => cell ∉ M ∧ count = nearbyMines h w M cell
  | .markMine c => c ∈ M
  | .markSafe c => c ∉ M

instance (M : Finset Cell) (h w : ℕ) (op : EngineOp) :
    Decidable (TruthfulOp M h w op) :=
  match op with
  | .ingest cell count _ =>
      inferInstanceAs (Decidable (cell ∉ M ∧ count = nearbyMines h w M cell))
  | .markMine c => inferInstanceAs (Decidable (c ∈ M))
  | .markSafe c => inferInstanceAs (Decidable (c ∉ M))

/-- Every operation of the list is truthful. -/
def Truthful (M : Finset Cell) (h w : ℕ) (ops : List EngineOp) : Prop :=
  ∀ op ∈ ops, TruthfulOp M h w op

/-- The caller-facing precondition: the mines all lie on the board, the
state is sound, and every move made was known safe. -/
def GoodState (M : Finset Cell) (st : AIState) : Prop :=
  (∀ m ∈ M, inBoundsHW st.height st.width m) ∧ Sound M st ∧
    st.moves_made ⊆ st.safes

theorem soundS_mark_mine (M : Finset Cell) (s : Sentence) (c : Cell)
    (hs : SoundS M s) (hc : c ∈ M) : SoundS M (s.mark_mine c) := by
  unfold Sentence.mark_mine
  by_cases hmem : c ∈ s.cells
  · rw [if_pos hmem]
    unfold SoundS at hs ⊢
    dsimp only
    have hcm : c ∈ s.cells ∩ M := Finset.mem_inter.mpr ⟨hmem, hc⟩
    have h1 : s.cells.erase c ∩ M = (s.cells ∩ M).erase c := by
      ext x
      simp only [Finset.mem_inter, Finset.mem_erase]
      tauto
    rw [h1, Finset.card_erase_of_mem hcm]
    have hpos : 1 ≤ (s.cells ∩ M).card := Finset.card_pos.mpr ⟨c, hcm⟩
    omega
  · rw [if_neg hmem]
    exact hs

theorem soundS_mark_safe (M : Finset Cell) (s : Sentence) (c : Cell)
    (hs : SoundS M s) (hc : c ∉ M) : SoundS M (s.mark_safe c) := by
  unfold Sentence.mark_safe
  by_cases hmem : c ∈ s.cells
  · rw [if_pos hmem]
    unfold SoundS at hs ⊢
    dsimp only
    have h1 : s.cells.erase c ∩ M = s.cells ∩ M := by
      ext x
      simp only [Finset.mem_inter, Finset.mem_erase]
      constructor
      · tauto
      · rintro ⟨hx, hxM⟩
        exact ⟨⟨fun he => hc (he ▸ hxM), hx⟩, hxM⟩
    rw [h1]
    exact hs
  · rw [if_neg hmem]
    exact hs

theorem soundS_sdiff_mines (M : Finset Cell) (s : Sentence) (S : Finset Cell)
    (hs : SoundS M s) (hS : S ⊆ M) :
    SoundS M ⟨s.cells \ S, s.count - ((s.cells ∩ S).card : ℤ)⟩ := by
  unfold SoundS at hs ⊢
  dsimp only
  have hsub : s.cells ∩ S ⊆ s.cells ∩ M :=
    Finset.inter_subset_inter (le_refl s.cells) hS
  have h1 : (s.cells \ S) ∩ M = (s.cells ∩ M) \ (s.cells ∩ S) := by
    ext x
    simp only [Finset.mem_inter, Finset.mem_sdiff]
    constructor
    · tauto
    · rintro ⟨⟨hx, hxM⟩, hn⟩
      exact ⟨⟨hx, fun hxS => hn ⟨hx, hxS⟩⟩, hxM⟩
  rw [h1, Finset.card_sdiff hsub]
  have hle := Finset.card_le_card hsub
  omega

theorem soundS_sdiff_safes (M : Finset Cell) (s : Sentence) (S : Finset Cell)
    (hs : SoundS M s) (hS : ∀ x ∈ S, x ∉ M) :
    SoundS M ⟨s.cells \ S, s.count⟩ := by
  unfold SoundS at hs ⊢
  dsimp only
  have h1 : (s.cells \ S) ∩ M = s.cells ∩ M := by
    ext x
    simp only [Finset.mem_inter, Finset.mem_sdiff]
    constructor
    · tauto
    · rintro ⟨hx, hxM⟩
      exact ⟨⟨hx, fun hxS => hS x hxS hxM⟩, hxM⟩
  rw [h1]
  exact hs

theorem soundS_difference (M : Finset Cell) (s1 s2 : Sentence)
    (h1 : SoundS M s1) (h2 : SoundS M s2) (hsub : s1.cells ⊆ s2.cells) :
    SoundS M ⟨s2.cells \ s1.cells, s2.count - s1.count⟩ := by
  unfold SoundS at h1 h2 ⊢
  dsimp only
  have hsub2 : s1.cells ∩ M ⊆ s2.cells ∩ M :=
    Finset.inter_subset_inter hsub (le_refl M)
  have heq : (s2.cells \ s1.cells) ∩ M = (s2.cells ∩ M) \ (s1.cells ∩ M) := by
    ext x
    simp only [Finset.mem_inter, Finset.mem_sdiff]
    constructor
    · tauto
    · rintro ⟨⟨hx, hxM⟩, hn⟩
      exact ⟨⟨hx, fun hx1 => hn ⟨hx1, hxM⟩⟩, hxM⟩
  rw [heq, Finset.card_sdiff hsub2]
  have hle := Finset.card_le_card hsub2
  omega

theorem known_mines_subset (M : Finset Cell) (s : Sentence)
    (hs : SoundS M s) : ∀ c ∈ s.known_mines, c ∈ M := by
  unfold Sentence.known_mines
  split
  · next hcond =>
      intro c hc
      unfold SoundS at hs
      have hcards : (s.cells ∩ M).card = s.cells.card := by omega
      have : s.cells ∩ M = s.cells :=
        Finset.eq_of_subset_of_card_le Finset.inter_subset_left
          (le_of_eq hcards.symm)
      have hsub : s.cells ⊆ M := by
        intro x hx
        have : x ∈ s.cells ∩ M := this.symm ▸ hx
        exact (Finset.mem_inter.mp this).2
      exact hsub hc
  · intro c hc
    exact absurd hc (Finset.not_mem_empty c)

theorem known_safes_not_mine (M : Finset Cell) (s : Sentence)
    (hs : SoundS M s) : ∀ c ∈ s.known_safes, c ∉ M := by
  unfold Sentence.known_safes
  split
  · next hcond =>
      intro c hc hcM
      unfold SoundS at hs
      rw [hcond] at hs
      have : s.cells ∩ M = ∅ := by
        have : (s.cells ∩ M).card = 0 := by omega
        exact Finset.card_eq_zero.mp this
      have : c ∈ (∅ : Finset Cell) :=
        this ▸ Finset.mem_inter.mpr ⟨hc, hcM⟩
      exact absurd this (Finset.not_mem_empty c)
  · intro c hc
    exact absurd hc (Finset.not_mem_empty c)

theorem foldl_union_mem (f : Sentence → Finset Cell) :
    ∀ (kb : List Sentence) (acc : Finset Cell) (c : Cell),
      c ∈ kb.foldl (fun a s => a ∪ f s) acc ↔ c ∈ acc ∨ ∃ s ∈ kb, c ∈ f s := by
  intro kb
  induction kb with
  | nil => simp
  | cons s rest ih =>
      intro acc c
      rw [List.foldl_cons, ih]
      simp only [Finset.mem_union, List.mem_cons]
      constructor
      · rintro ((h | h) | ⟨t, ht, hc⟩)
        · exact Or.inl h
        · exact Or.inr ⟨s, Or.inl rfl, h⟩
        · exact Or.inr ⟨t, Or.inr ht, hc⟩
      · rintro (h | ⟨t, (rfl | ht), hc⟩)
        · exact Or.inl (Or.inl h)
        · exact Or.inl (Or.inr hc)
        · exact Or.inr ⟨t, ht, hc⟩

theorem harvestMines_subset (M : Finset Cell) (kb : List Sentence)
    (hkb : ∀ s ∈ kb, SoundS M s) : ∀ c ∈ harvestMines kb, c ∈ M := by
  intro c hc
  rcases (foldl_union_mem Sentence.known_mines kb ∅ c).mp hc with h | ⟨s, hs, hcs⟩
  · exact absurd h (Finset.not_mem_empty c)
  · exact known_mines_subset M s (hkb s hs) c hcs

theorem harvestSafes_not_mine (M : Finset Cell) (kb : List Sentence)
    (hkb : ∀ s ∈ kb, SoundS M s) : ∀ c ∈ harvestSafes kb, c ∉ M := by
  intro c hc
  rcases (foldl_union_mem Sentence.known_safes kb ∅ c).mp hc with h | ⟨s, hs, hcs⟩
  · exact absurd h (Finset.not_mem_empty c)
  · exact known_safes_not_mine M s (hkb s hs) c hcs

theorem markMineSet_sound (M : Finset Cell) (st : AIState) (S : Finset Cell)
    (hst : Sound M st) (hS : S ⊆ M) : Sound M (markMineSet st S) := by
  obtain ⟨hmine, hsafe, hkb⟩ := hst
  refine ⟨?_, hsafe, ?_⟩
  · intro c hc
    rcases Finset.mem_union.mp hc with h | h
    · exact hmine c h
    · exact hS h
  · intro s hs
    rw [markMineSet, List.mem_map] at hs
    obtain ⟨t, ht, rfl⟩ := hs
    exact soundS_sdiff_mines M t S (hkb t ht) hS

theorem markSafeSet_sound (M : Finset Cell) (st : AIState) (S : Finset Cell)
    (hst : Sound M st) (hS : ∀ x ∈ S, x ∉ M) : Sound M (markSafeSet st S) := by
  obtain ⟨hmine, hsafe, hkb⟩ := hst
  refine ⟨hmine, ?_, ?_⟩
  · intro c hc
    rcases Finset.mem_union.mp hc with h | h
    · exact hsafe c h
    · exact hS c h
  · intro s hs
    rw [markSafeSet, List.mem_map] at hs
    obtain ⟨t, ht, rfl⟩ := hs
    exact soundS_sdiff_safes M t S (hkb t ht) hS

theorem markPhase_sound (M : Finset Cell) (st : AIState)
    (hst : Sound M st) : Sound M (markPhase st).1 := by
  have h1 : Sound M (markMineSet st (harvestMines st.knowledge)) :=
    markMineSet_sound M st _ hst
      (fun c hc => harvestMines_subset M st.knowledge hst.2.2 c hc)
  have hkb1 : ∀ s ∈ (markMineSet st (harvestMines st.knowledge)).knowledge,
      SoundS M s := h1.2.2
  exact markSafeSet_sound M _ _ h1
    (fun c hc => harvestSafes_not_mine M st.knowledge hst.2.2 c hc)

theorem dropEmpties_sound (M : Finset Cell) (st : AIState)
    (hst : Sound M st) : Sound M (dropEmpties st) := by
  obtain ⟨hmine, hsafe, hkb⟩ := hst
  refine ⟨hmine, hsafe, ?_⟩
  intro s hs
  rw [dropEmpties, List.mem_filter] at hs
  exact hkb s hs.1

theorem deriveStep_soundS (M : Finset Cell) (snapshot : List Sentence)
    (hsnap : ∀ s ∈ snapshot, SoundS M s) (acc : List Sentence × Bool)
    (ij : ℕ × ℕ) (hacc : ∀ s ∈ acc.1, SoundS M s) :
    ∀ s ∈ (deriveStep snapshot acc ij).1, SoundS M s := by
  unfold deriveStep
  rcases h1 : snapshot.get? ij.1 with _ | s1
  · exact hacc
  rcases h2 : snapshot.get? ij.2 with _ | s2
  · exact hacc
  dsimp only
  split
  · next hsub =>
      split
      · exact hacc
      · intro s hs
        rcases List.mem_append.mp hs with h | h
        · exact hacc s h
        · rw [List.mem_singleton.mp h]
          exact soundS_difference M s1 s2
            (hsnap s1 (List.get?_mem h1)) (hsnap s2 (List.get?_mem h2)) hsub
  · exact hacc

theorem subsetDerive_soundS (M : Finset Cell) (snapshot : List Sentence)
    (hsnap : ∀ s ∈ snapshot, SoundS M s) :
    ∀ s ∈ (subsetDerive snapshot).1, SoundS M s := by
  unfold subsetDerive
  generalize (pairIdx snapshot.length) = pairs
  have main : ∀ (ps : List (ℕ × ℕ)) (acc : List Sentence × Bool),
      (∀ s ∈ acc.1, SoundS M s) →
      ∀ s ∈ (ps.foldl (deriveStep snapshot) acc).1, SoundS M s := by
    intro ps
    induction ps with
    | nil => exact fun acc h => h
    | cons p rest ih =>
        exact fun acc h =>
          ih _ (deriveStep_soundS M snapshot hsnap acc p h)
  exact main pairs (snapshot, false) hsnap

theorem fixpass_sound (M : Finset Cell) (st : AIState)
    (hst : Sound M st) : Sound M (fixpass st).1 := by
  have h2 : Sound M (dropEmpties (markPhase st).1) :=
    dropEmpties_sound M _ (markPhase_sound M st hst)
  exact ⟨h2.1, h2.2.1, subsetDerive_soundS M _ h2.2.2⟩

theorem fixLoop_sound (M : Finset Cell) :
    ∀ (n : ℕ) (st st' : AIState), Sound M st → fixLoop n st = some st' →
      Sound M st' := by
  intro n
  induction n with
  | zero => intro st st' _ h; exact absurd h (by simp [fixLoop])
  | succ n ih =>
      intro st st' hst h
      rw [fixLoop] at h
      by_cases hp : (fixpass st).2
      · rw [if_pos hp] at h
        exact ih _ _ (fixpass_sound M st hst) h
      · rw [if_neg hp] at h
        rw [← Option.some_inj.mp h]
        exact fixpass_sound M st hst

theorem fixpass_frame (st : AIState) :
    (fixpass st).1.height = st.height ∧ (fixpass st).1.width = st.width ∧
    (fixpass st).1.moves_made = st.moves_made ∧
    st.mines ⊆ (fixpass st).1.mines ∧ st.safes ⊆ (fixpass st).1.safes := by
  refine ⟨rfl, rfl, rfl, ?_, ?_⟩
  · exact Finset.subset_union_left
  · exact Finset.subset_union_left

theorem fixLoop_frame :
    ∀ (n : ℕ) (st st' : AIState), fixLoop n st = some st' →
      st'.height = st.height ∧ st'.width = st.width ∧
      st'.moves_made = st.moves_made ∧
      st.mines ⊆ st'.mines ∧ st.safes ⊆ st'.safes := by
  intro n
  induction n with
  | zero => intro st st' h; exact absurd h (by simp [fixLoop])
  | succ n ih =>
      intro st st' h
      rw [fixLoop] at h
      have hf := fixpass_frame st
      by_cases hp : (fixpass st).2
      · rw [if_pos hp] at h
        have hr := ih _ _ h
        exact ⟨hr.1.trans hf.1, hr.2.1.trans hf.2.1,
          hr.2.2.1.trans hf.2.2.1,
          hf.2.2.2.1.trans hr.2.2.2.1, hf.2.2.2.2.trans hr.2.2.2.2⟩
      · rw [if_neg hp] at h
        rw [← Option.some_inj.mp h]
        exact hf

theorem ingestScan_spec (M : Finset Cell) (st : AIState)
    (hsafe : ∀ c ∈ st.safes, c ∉ M) (hmine : ∀ c ∈ st.mines, c ∈ M)
    (hMb : ∀ m ∈ M, inBoundsHW st.height st.width m) :
    ∀ (l : List Cell) (nb : Finset Cell) (cnt : ℤ), l.Nodup →
      (∀ p ∈ l, p ∉ nb) →
      (((ingestScan st l (nb, cnt)).1 ∩ M).card : ℤ) -
          (ingestScan st l (nb, cnt)).2 =
        ((nb ∩ M).card : ℤ) - cnt +
          ((l.filter (fun p => decide (p ∈ M))).length : ℤ) := by
  intro l
  induction l with
  | nil => intro nb cnt _ _; simp [ingestScan]
  | cons p rest ih =>
      intro nb cnt hnd hnin
      have hndr : rest.Nodup := (List.nodup_cons.mp hnd).2
      have hpr : p ∉ rest := (List.nodup_cons.mp hnd).1
      have hninr : ∀ q ∈ rest, q ∉ nb :=
        fun q hq => hnin q (List.mem_cons_of_mem p hq)
      by_cases hps : p ∈ st.safes
      · have hpM : p ∉ M := hsafe p hps
        simp only [ingestScan, if_pos hps]
        rw [ih nb cnt hndr hninr]
        simp [List.filter_cons, hpM]
      · by_cases hpm : p ∈ st.mines
        · have hpM : p ∈ M := hmine p hpm
          simp only [ingestScan, if_neg hps, if_pos hpm]
          rw [ih nb (cnt - 1) hndr hninr]
          simp only [List.filter_cons, hpM, decide_True, if_true,
            List.length_cons]
          push_cast
          ring
        · by_cases hpb : 0 ≤ p.1 ∧ p.1 < (st.height : ℤ) ∧
              0 ≤ p.2 ∧ p.2 < (st.width : ℤ)
          · simp only [ingestScan, if_neg hps, if_neg hpm, if_pos hpb]
            have hninr2 : ∀ q ∈ rest, q ∉ insert p nb := by
              intro q hq
              rw [Finset.mem_insert]
              rintro (rfl | hqnb)
              · exact hpr hq
              · exact hninr q hq hqnb
            rw [ih (insert p nb) cnt hndr hninr2]
            by_cases hpM : p ∈ M
            · have h1 : insert p nb ∩ M = insert p (nb ∩ M) :=
                Finset.insert_inter_of_mem hpM
              have h2 : p ∉ nb ∩ M :=
                fun h => hnin p (List.mem_cons_self p rest)
                  (Finset.mem_inter.mp h).1
              rw [h1, Finset.card_insert_of_not_mem h2]
              simp only [List.filter_cons, hpM, decide_True, if_true,
                List.length_cons]
              push_cast
              ring
            · rw [Finset.insert_inter_of_not_mem hpM]
              simp [List.filter_cons, hpM]
          · have hpM : p ∉ M := by
              intro h
              exact hpb (hMb p h)
            simp only [ingestScan, if_neg hps, if_neg hpm, if_neg hpb]
            rw [ih nb cnt hndr hninr]
            simp [List.filter_cons, hpM]

theorem neighborCells_nodup (c : Cell) : (neighborCells c).Nodup := by
  obtain ⟨a, b⟩ := c
  simp [neighborCells, List.nodup_cons, List.mem_cons, Prod.mk.injEq]
  omega

theorem nearbyMines_eq_filter (M : Finset Cell) (h w : ℕ) (cell : Cell)
    (hMb : ∀ m ∈ M, inBoundsHW h w m) (hcell : cell ∉ M) :
    nearbyMines h w M cell =
      (((neighborCells cell).filter (fun p => decide (p ∈ M))).length : ℤ) := by
  unfold nearbyMines
  congr 2
  apply List.filter_congr
  intro p hp
  by_cases hpM : p ∈ M
  · have h1 : p ≠ cell := fun he => hcell (he ▸ hpM)
    simp [hpM, h1, hMb p hpM]
  · simp [hpM]

theorem ingestScan_sound (M : Finset Cell) (stX : AIState) (cell : Cell)
    (count : ℤ) (hsafeX : ∀ c ∈ stX.safes, c ∉ M)
    (hmineX : ∀ c ∈ stX.mines, c ∈ M)
    (hMbX : ∀ m ∈ M, inBoundsHW stX.height stX.width m) (hcell : cell ∉ M)
    (hcount : count = nearbyMines stX.height stX.width M cell) :
    SoundS M ⟨(ingestScan stX (neighborCells cell) (∅, count)).1,
      (ingestScan stX (neighborCells cell) (∅, count)).2⟩ := by
  have hspec := ingestScan_spec M stX hsafeX hmineX hMbX
    (neighborCells cell) ∅ count (neighborCells_nodup cell)
    (fun p _ => Finset.not_mem_empty p)
  have hn := nearbyMines_eq_filter M stX.height stX.width cell hMbX hcell
  rw [hn] at hcount
  unfold SoundS
  dsimp only
  rw [Finset.empty_inter, Finset.card_empty] at hspec
  omega

theorem ingestPre_sound (M : Finset Cell) (st : AIState) (cell : Cell)
    (count : ℤ) (hg : GoodState M st) (hcell : cell ∉ M)
    (hcount : count = nearbyMines st.height st.width M cell) :
    GoodState M (ingestPre st cell count) ∧
    (ingestPre st cell count).height = st.height ∧
    (ingestPre st cell count).width = st.width ∧
    st.mines ⊆ (ingestPre st cell count).mines ∧
    st.safes ⊆ (ingestPre st cell count).safes ∧
    st.moves_made ⊆ (ingestPre st cell count).moves_made := by
  obtain ⟨hMb, ⟨hmine, hsafe, hkb⟩, hms⟩ := hg
  have hsafe2 : ∀ c ∈ insert cell st.safes, c ∉ M := by
    intro c hc
    rcases Finset.mem_insert.mp hc with rfl | h
    · exact hcell
    · exact hsafe c h
  refine ⟨⟨?_, ⟨?_, ?_, ?_⟩, ?_⟩, rfl, rfl, ?_, ?_, ?_⟩
  · intro m hm
    exact hMb m hm
  · intro c hc
    exact hmine c hc
  · intro c hc
    exact hsafe2 c hc
  · intro s hs
    have hs2 : s ∈ (st.knowledge.map (fun t => t.mark_safe cell)) ++
        [⟨(ingestScan
            (AIState.markSafe
              { st with moves_made := insert cell st.moves_made } cell)
            (neighborCells cell) (∅, count)).1,
          (ingestScan
            (AIState.markSafe
              { st with moves_made := insert cell st.moves_made } cell)
            (neighborCells cell) (∅, count)).2⟩] := hs
    rcases List.mem_append.mp hs2 with h | h
    · obtain ⟨t, ht, rfl⟩ := List.mem_map.mp h
      exact soundS_mark_safe M t cell (hkb t ht) hcell
    · rw [List.mem_singleton.mp h]
      apply ingestScan_sound M _ cell count
      · intro c hc
        exact hsafe2 c hc
      · intro c hc
        exact hmine c hc
      · intro m hm
        exact hMb m hm
      · exact hcell
      · exact hcount
  · intro x hx
    have hx2 : x ∈ insert cell st.moves_made := hx
    rcases Finset.mem_insert.mp hx2 with rfl | h
    · exact Finset.mem_insert_self x _
    · exact Finset.mem_insert_of_mem (hms h)
  · exact Finset.Subset.refl _
  · exact Finset.subset_insert _ _
  · exact Finset.subset_insert _ _

theorem runOp_master (M : Finset Cell) (st st' : AIState) (op : EngineOp)
    (hg : GoodState M st) (ht : TruthfulOp M st.height st.width op)
    (h : runOp st op = some st') :
    GoodState M st' ∧ st'.height = st.height ∧ st'.width = st.width ∧
      st.mines ⊆ st'.mines ∧ st.safes ⊆ st'.safes ∧
      st.moves_made ⊆ st'.moves_made := by
  obtain ⟨hMb, ⟨hmine, hsafe, hkb⟩, hms⟩ := hg
  cases op with
  | markMine c =>
      have hst : st.markMine c = st' := Option.some_inj.mp h
      subst hst
      refine ⟨⟨hMb, ⟨?_, hsafe, ?_⟩, hms⟩, rfl, rfl,
        Finset.subset_insert _ _, Finset.Subset.refl _, Finset.Subset.refl _⟩
      · intro x hx
        rcases Finset.mem_insert.mp hx with rfl | hxm
        · exact ht
        · exact hmine x hxm
      · intro s hs
        obtain ⟨t, htk, rfl⟩ := List.mem_map.mp hs
        exact soundS_mark_mine M t c (hkb t htk) ht
  | markSafe c =>
      have hst : st.markSafe c = st' := Option.some_inj.mp h
      subst hst
      refine ⟨⟨hMb, ⟨hmine, ?_, ?_⟩, fun x hx => Finset.mem_insert_of_mem (hms hx)⟩,
        rfl, rfl, Finset.Subset.refl _, Finset.subset_insert _ _,
        Finset.Subset.refl _⟩
      · intro x hx
        rcases Finset.mem_insert.mp hx with rfl | hxs
        · exact ht
        · exact hsafe x hxs
      · intro s hs
        obtain ⟨t, htk, rfl⟩ := List.mem_map.mp hs
        exact soundS_mark_safe M t c (hkb t htk) ht
  | ingest cell count fuel =>
      have hip := ingestPre_sound M st cell count ⟨hMb, ⟨hmine, hsafe, hkb⟩, hms⟩
        ht.1 ht.2
      have hloop : fixLoop fuel (ingestPre st cell count) = some st' := h
      have hs' := fixLoop_sound M fuel _ st' hip.1.2.1 hloop
      have hf := fixLoop_frame fuel _ st' hloop
      have hh : st'.height = st.height := hf.1.trans hip.2.1
      have hw : st'.width = st.width := hf.2.1.trans hip.2.2.1
      refine ⟨⟨?_, hs', ?_⟩, hh, hw, ?_, ?_, ?_⟩
      · intro m hm
        rw [hh, hw]
        exact hMb m hm
      · rw [hf.2.2.1]
        exact fun x hx => hf.2.2.2.2 (hip.1.2.2 hx)
      · exact fun x hx => hf.2.2.2.1 (hip.2.2.2.1 hx)
      · exact fun x hx => hf.2.2.2.2 (hip.2.2.2.2.1 hx)
      · rw [hf.2.2.1]
        exact hip.2.2.2.2.2

theorem runOps_master (M : Finset Cell) :
    ∀ (ops : List EngineOp) (st st' : AIState), GoodState M st →
      Truthful M st.height st.width ops → runOps st ops = some st' →
      GoodState M st' ∧ st'.height = st.height ∧ st'.width = st.width ∧
        st.mines ⊆ st'.mines ∧ st.safes ⊆ st'.safes ∧
        st.moves_made ⊆ st'.moves_made := by
  intro ops
  induction ops with
  | nil =>
      intro st st' hg _ h
      have : st = st' := Option.some_inj.mp h
      subst this
      exact ⟨hg, rfl, rfl, Finset.Subset.refl _, Finset.Subset.refl _,
        Finset.Subset.refl _⟩
  | cons op rest ih =>
      intro st st' hg ht h
      rcases hop : runOp st op with _ | st1
      · rw [runOps, hop] at h
        exact absurd h (by simp)
      · rw [runOps, hop] at h
        have h1 := runOp_master M st st1 op hg
          (ht op (List.mem_cons_self op rest)) hop
        have ht1 : Truthful M st1.height st1.width rest := by
          rw [h1.2.1, h1.2.2.1]
          exact fun o ho => ht o (List.mem_cons_of_mem op ho)
        have h2 := ih st1 st' h1.1 ht1 h
        exact ⟨h2.1, h2.2.1.trans h1.2.1, h2.2.2.1.trans h1.2.2.1,
          h1.2.2.2.1.trans h2.2.2.2.1, h1.2.2.2.2.1.trans h2.2.2.2.2.1,
          h1.2.2.2.2.2.trans h2.2.2.2.2.2⟩

instance (M : Finset Cell) (st : AIState) : Decidable (GoodState M st) :=
  inferInstanceAs
    (Decidable ((∀ m ∈ M, inBoundsHW st.height st.width m) ∧ Sound M st ∧
      st.moves_made ⊆ st.safes))

instance (M : Finset Cell) (h w : ℕ) (ops : List EngineOp) :
    Decidable (Truthful M h w ops) :=
  inferInstanceAs (Decidable (∀ op ∈ ops, TruthfulOp M h w op))

/-- C5: along any truthful operation sequence from a sound state, mines
and safes only grow, they are disjoint at every observation point, and
moves_made stays inside safes. -/
theorem C5_monotonic_classifications (M : Finset Cell) (ops : List EngineOp)
    (st st' : AIState) (hg : GoodState M st)
    (ht : Truthful M st.height st.width ops) (h : runOps st ops = some st') :
    st.mines ⊆ st'.mines ∧ st.safes ⊆ st'.safes ∧
      Disjoint st'.safes st'.mines ∧ st'.moves_made ⊆ st'.safes := by
  have hm := runOps_master M ops st st' hg ht h
  refine ⟨hm.2.2.2.1, hm.2.2.2.2.1, ?_, hm.1.2.2⟩
  rw [Finset.disjoint_left]
  intro a ha ham
  exact hm.1.2.1.2.1 a ha (hm.1.2.1.1 a ham)

/-- Witness for C5 on the truthful 3 by 3 trace ops33 with the mine at
(1, 1). -/
theorem C5_monotonic_classifications_witness :
    GoodState {((1:ℤ),(1:ℤ))} (AIState.init 3 3) ∧
    Truthful {((1:ℤ),(1:ℤ))} 3 3 ops33 ∧
    runOps (AIState.init 3 3) ops33 = some stDup ∧
    ((AIState.init 3 3).mines ⊆ stDup.mines ∧
      (AIState.init 3 3).safes ⊆ stDup.safes ∧
      Disjoint stDup.safes stDup.mines ∧ stDup.moves_made ⊆ stDup.safes) :=
  ⟨by decide, by decide, by decide,
    C5_monotonic_classifications {((1:ℤ),(1:ℤ))} ops33 (AIState.init 3 3)
      stDup (by decide) (by decide) (by decide)⟩

/-- C8: along any truthful operation sequence from a sound state, every
sentence of the resulting knowledge base satisfies
0 ≤ count ≤ number of cells. -/
theorem C8_constraint_validity (M : Finset Cell) (ops : List EngineOp)
    (st st' : AIState) (hg : GoodState M st)
    (ht : Truthful M st.height st.width ops) (h : runOps st ops = some st') :
    ∀ s ∈ st'.knowledge, 0 ≤ s.count ∧ s.count ≤ (s.cells.card : ℤ) := by
  have hm := runOps_master M ops st st' hg ht h
  intro s hs
  have hsound := hm.1.2.1.2.2 s hs
  unfold SoundS at hsound
  constructor
  · rw [← hsound]
    exact Int.natCast_nonneg _
  · rw [← hsound]
    exact_mod_cast Finset.card_le_card Finset.inter_subset_left

/-- Witness for C8 on the truthful 3 by 3 trace ops33 with the mine at
(1, 1). -/
theorem C8_constraint_validity_witness :
    GoodState {((1:ℤ),(1:ℤ))} (AIState.init 3 3) ∧
    runOps (AIState.init 3 3) ops33 = some stDup ∧
    ∀ s ∈ stDup.knowledge, 0 ≤ s.count ∧ s.count ≤ (s.cells.card : ℤ) :=
  ⟨by decide, by decide,
    C8_constraint_validity {((1:ℤ),(1:ℤ))} ops33 (AIState.init 3 3) stDup
      (by decide) (by decide) (by decide)⟩

theorem deriveStep_flag_false (snapshot : List Sentence)
    (acc : List Sentence × Bool) (ij : ℕ × ℕ) :
    (deriveStep snapshot acc ij).2 = false →
    deriveStep snapshot acc ij = acc := by
  unfold deriveStep
  rcases snapshot.get? ij.1 with _ | s1
  · intro _; rfl
  rcases snapshot.get? ij.2 with _ | s2
  · intro _; rfl
  dsimp only
  by_cases hsub : s1.cells ⊆ s2.cells
  · rw [if_pos hsub]
    by_cases hmem : (⟨s2.cells \ s1.cells, s2.count - s1.count⟩ : Sentence) ∈ acc.1
    · rw [if_pos hmem]
      intro _
      rfl
    · rw [if_neg hmem]
      intro hbad
      exact absurd hbad (by simp)
  · rw [if_neg hsub]
    intro _
    rfl

theorem foldl_deriveStep_flag_false (snapshot : List Sentence) :
    ∀ (pairs : List (ℕ × ℕ)) (acc : List Sentence × Bool),
      (pairs.foldl (deriveStep snapshot) acc).2 = false →
      pairs.foldl (deriveStep snapshot) acc = acc := by
  intro pairs
  induction pairs with
  | nil => exact fun acc _ => rfl
  | cons p rest ih =>
      intro acc h
      rw [List.foldl_cons] at h ⊢
      have h1 := ih _ h
      rw [h1] at h ⊢
      exact deriveStep_flag_false snapshot acc p h

theorem subsetDerive_flag_false (kb : List Sentence)
    (h : (subsetDerive kb).2 = false) : (subsetDerive kb).1 = kb := by
  unfold subsetDerive at h ⊢
  rw [foldl_deriveStep_flag_false kb _ _ h]

theorem fixpass_exit (M : Finset Cell) (st st' : AIState) (hst : Sound M st)
    (h : fixpass st = (st', false)) : ∀ s ∈ st'.knowledge, s.cells ≠ ∅ := by
  have h1 : (fixpass st).1 = st' := by rw [h]
  have h2 : (fixpass st).2 = false := by rw [h]
  have hd : (subsetDerive (dropEmpties (markPhase st).1).knowledge).2 = false := by
    have hb : ((markPhase st).2 ||
        (subsetDerive (dropEmpties (markPhase st).1).knowledge).2) = false := h2
    exact (Bool.or_eq_false_iff.mp hb).2
  have hkb : st'.knowledge = (dropEmpties (markPhase st).1).knowledge := by
    rw [← h1]
    exact subsetDerive_flag_false _ hd
  intro s hs
  rw [hkb] at hs
  have hsound : SoundS M s :=
    (dropEmpties_sound M _ (markPhase_sound M st hst)).2.2 s hs
  have hne : s ≠ (⟨∅, 0⟩ : Sentence) := by
    have hf : s ∈ (markPhase st).1.knowledge.filter
        (fun t => decide (t ≠ (⟨∅, 0⟩ : Sentence))) := hs
    have := (List.mem_filter.mp hf).2
    exact of_decide_eq_true this
  intro hcells
  apply hne
  rcases s with ⟨cells, count⟩
  dsimp only at hcells
  subst hcells
  unfold SoundS at hsound
  rw [Finset.empty_inter, Finset.card_empty] at hsound
  simp only [Sentence.mk.injEq]
  refine ⟨trivial, ?_⟩
  exact_mod_cast hsound.symm

theorem fixLoop_exit (M : Finset Cell) :
    ∀ (n : ℕ) (st st' : AIState), Sound M st → fixLoop n st = some st' →
      ∀ s ∈ st'.knowledge, s.cells ≠ ∅ := by
  intro n
  induction n with
  | zero => intro st st' _ h; exact absurd h (by simp [fixLoop])
  | succ n ih =>
      intro st st' hst h
      rw [fixLoop] at h
      by_cases hp : (fixpass st).2
      · rw [if_pos hp] at h
        exact ih _ _ (fixpass_sound M st hst) h
      · rw [if_neg hp] at h
        have hp2 : (fixpass st).2 = false := by
          rw [Bool.not_eq_true] at hp
          exact hp
        have hpair : fixpass st = (st', false) := by
          rw [← Option.some_inj.mp h, ← hp2]
        exact fixpass_exit M st st' hst hpair

/-- C4: a truthful add_knowledge call from a sound state leaves no
sentence with an empty cell set in the knowledge base when it returns;
moreover, inside each pass, the knowledge base handed to the
subset-derivation step (the filter after the marking phase) contains no
empty sentence. -/
theorem C4_no_empty_constraints (M : Finset Cell) (st st' : AIState)
    (cell : Cell) (count : ℤ) (fuel : ℕ) (hg : GoodState M st)
    (hcell : cell ∉ M)
    (hcount : count = nearbyMines st.height st.width M cell)
    (h : addKnowledge fuel st cell count = some st') :
    (∀ s ∈ st'.knowledge, s.cells ≠ ∅) ∧
    (∀ stX : AIState, Sound M stX →
      ∀ s ∈ (dropEmpties (markPhase stX).1).knowledge,
        s ≠ (⟨∅, 0⟩ : Sentence) ∧ s.cells ≠ ∅) := by
  constructor
  · have hip := ingestPre_sound M st cell count hg hcell hcount
    exact fixLoop_exit M fuel _ st' hip.1.2.1 h
  · intro stX hX s hs
    have hsound : SoundS M s :=
      (dropEmpties_sound M _ (markPhase_sound M stX hX)).2.2 s hs
    have hne : s ≠ (⟨∅, 0⟩ : Sentence) := by
      have hf : s ∈ (markPhase stX).1.knowledge.filter
          (fun t => decide (t ≠ (⟨∅, 0⟩ : Sentence))) := hs
      exact of_decide_eq_true (List.mem_filter.mp hf).2
    refine ⟨hne, ?_⟩
    intro hcells
    apply hne
    rcases s with ⟨cells, count2⟩
    dsimp only at hcells
    subst hcells
    unfold SoundS at hsound
    rw [Finset.empty_inter, Finset.card_empty] at hsound
    simp only [Sentence.mk.injEq]
    refine ⟨trivial, ?_⟩
    exact_mod_cast hsound.symm

/-- Witness for C4: the truthful first reveal on the fresh 2 by 2 board
with the mine at (1, 1). -/
theorem C4_no_empty_constraints_witness :
    GoodState {((1:ℤ),(1:ℤ))} (AIState.init 2 2) ∧
    (1 : ℤ) = nearbyMines 2 2 {((1:ℤ),(1:ℤ))} ((0:ℤ),(0:ℤ)) ∧
    addKnowledge 2 (AIState.init 2 2) ((0:ℤ),(0:ℤ)) 1 = some st22a ∧
    ∀ s ∈ st22a.knowledge, s.cells ≠ ∅ :=
  ⟨by decide, by decide, by decide,
    (C4_no_empty_constraints {((1:ℤ),(1:ℤ))} (AIState.init 2 2) st22a
      ((0:ℤ),(0:ℤ)) 1 2 (by decide) (by decide) (by decide) (by decide)).1⟩

/-- No live sentence mentions an already classified cell. -/
def ClassFree (st : AIState) : Prop :=
  ∀ s ∈ st.knowledge, s.cells ∩ (st.safes ∪ st.mines) = ∅

instance (st : AIState) : Decidable (ClassFree st) :=
  inferInstanceAs (Decidable (∀ s ∈ st.knowledge, _ = _))

theorem mark_mine_cells_sub (t : Sentence) (c : Cell) :
    ∀ x ∈ (t.mark_mine c).cells, x ∈ t.cells ∧ x ≠ c := by
  intro x hx
  unfold Sentence.mark_mine at hx
  by_cases hm : c ∈ t.cells
  · rw [if_pos hm] at hx
    exact ⟨Finset.mem_of_mem_erase hx, Finset.ne_of_mem_erase hx⟩
  · rw [if_neg hm] at hx
    exact ⟨hx, fun he => hm (he ▸ hx)⟩

theorem mark_safe_cells_sub (t : Sentence) (c : Cell) :
    ∀ x ∈ (t.mark_safe c).cells, x ∈ t.cells ∧ x ≠ c := by
  intro x hx
  unfold Sentence.mark_safe at hx
  by_cases hm : c ∈ t.cells
  · rw [if_pos hm] at hx
    exact ⟨Finset.mem_of_mem_erase hx, Finset.ne_of_mem_erase hx⟩
  · rw [if_neg hm] at hx
    exact ⟨hx, fun he => hm (he ▸ hx)⟩

theorem classFree_markMine (st : AIState) (c : Cell) (h : ClassFree st) :
    ClassFree (st.markMine c) := by
  intro s hs
  obtain ⟨t, ht, rfl⟩ := List.mem_map.mp hs
  rw [Finset.eq_empty_iff_forall_not_mem]
  intro x hx
  rw [Finset.mem_inter] at hx
  obtain ⟨hx1, hx2⟩ := hx
  have hxc := mark_mine_cells_sub t c x hx1
  have hold := h t ht
  rw [Finset.eq_empty_iff_forall_not_mem] at hold
  rcases Finset.mem_union.mp hx2 with hxs | hxm
  · exact hold x (Finset.mem_inter.mpr ⟨hxc.1, Finset.mem_union_left _ hxs⟩)
  · rcases Finset.mem_insert.mp hxm with rfl | hxm2
    · exact hxc.2 rfl
    · exact hold x
        (Finset.mem_inter.mpr ⟨hxc.1, Finset.mem_union_right _ hxm2⟩)

theorem classFree_markSafe (st : AIState) (c : Cell) (h : ClassFree st) :
    ClassFree (st.markSafe c) := by
  intro s hs
  obtain ⟨t, ht, rfl⟩ := List.mem_map.mp hs
  rw [Finset.eq_empty_iff_forall_not_mem]
  intro x hx
  rw [Finset.mem_inter] at hx
  obtain ⟨hx1, hx2⟩ := hx
  have hxc := mark_safe_cells_sub t c x hx1
  have hold := h t ht
  rw [Finset.eq_empty_iff_forall_not_mem] at hold
  rcases Finset.mem_union.mp hx2 with hxs | hxm
  · rcases Finset.mem_insert.mp hxs with rfl | hxs2
    · exact hxc.2 rfl
    · exact hold x
        (Finset.mem_inter.mpr ⟨hxc.1, Finset.mem_union_left _ hxs2⟩)
  · exact hold x (Finset.mem_inter.mpr ⟨hxc.1, Finset.mem_union_right _ hxm⟩)

theorem ingestScan_avoid (st : AIState) :
    ∀ (l : List Cell) (nb : Finset Cell) (cnt : ℤ),
      (∀ q ∈ nb, q ∉ st.safes ∧ q ∉ st.mines) →
      ∀ q ∈ (ingestScan st l (nb, cnt)).1, q ∉ st.safes ∧ q ∉ st.mines := by
  intro l
  induction l with
  | nil => intro nb cnt h q hq; exact h q hq
  | cons p rest ih =>
      intro nb cnt h q hq
      by_cases hps : p ∈ st.safes
      · simp only [ingestScan, if_pos hps] at hq
        exact ih nb cnt h q hq
      · by_cases hpm : p ∈ st.mines
        · simp only [ingestScan, if_neg hps, if_pos hpm] at hq
          exact ih nb (cnt - 1) h q hq
        · by_cases hpb : 0 ≤ p.1 ∧ p.1 < (st.height : ℤ) ∧
              0 ≤ p.2 ∧ p.2 < (st.width : ℤ)
          · simp only [ingestScan, if_neg hps, if_neg hpm, if_pos hpb] at hq
            refine ih (insert p nb) cnt ?_ q hq
            intro r hr
            rcases Finset.mem_insert.mp hr with rfl | hrnb
            · exact ⟨hps, hpm⟩
            · exact h r hrnb
          · simp only [ingestScan, if_neg hps, if_neg hpm, if_neg hpb] at hq
            exact ih nb cnt h q hq

theorem subsetDerive_pres (P : Sentence → Prop)
    (hP : ∀ s1 s2 : Sentence, P s2 →
      P ⟨s2.cells \ s1.cells, s2.count - s1.count⟩)
    (snapshot : List Sentence) (hsnap : ∀ s ∈ snapshot, P s) :
    ∀ s ∈ (subsetDerive snapshot).1, P s := by
  unfold subsetDerive
  generalize (pairIdx snapshot.length) = pairs
  have step : ∀ (acc : List Sentence × Bool) (ij : ℕ × ℕ),
      (∀ s ∈ acc.1, P s) → ∀ s ∈ (deriveStep snapshot acc ij).1, P s := by
    intro acc ij hacc
    unfold deriveStep
    rcases h1 : snapshot.get? ij.1 with _ | s1
    · exact hacc
    rcases h2 : snapshot.get? ij.2 with _ | s2
    · exact hacc
    dsimp only
    split
    · split
      · exact hacc
      · intro s hs
        rcases List.mem_append.mp hs with hsl | hsr
        · exact hacc s hsl
        · rw [List.mem_singleton.mp hsr]
          exact hP s1 s2 (hsnap s2 (List.get?_mem h2))
    · exact hacc
  have main : ∀ (ps : List (ℕ × ℕ)) (acc : List Sentence × Bool),
      (∀ s ∈ acc.1, P s) → ∀ s ∈ (ps.foldl (deriveStep snapshot) acc).1, P s := by
    intro ps
    induction ps with
    | nil => exact fun acc hacc => hacc
    | cons p rest ih => exact fun acc hacc => ih _ (step acc p hacc)
  exact main pairs (snapshot, false) hsnap

theorem classFree_fixpass (st : AIState) (h : ClassFree st) :
    ClassFree (fixpass st).1 := by
  have h1 : ClassFree (markMineSet st (harvestMines st.knowledge)) := by
    intro s hs
    obtain ⟨t, ht, rfl⟩ := List.mem_map.mp hs
    rw [Finset.eq_empty_iff_forall_not_mem]
    intro x hx
    rw [Finset.mem_inter] at hx
    obtain ⟨hx1, hx2⟩ := hx
    rw [Finset.mem_sdiff] at hx1
    have hold := h t ht
    rw [Finset.eq_empty_iff_forall_not_mem] at hold
    rcases Finset.mem_union.mp hx2 with hxs | hxm
    · exact hold x
        (Finset.mem_inter.mpr ⟨hx1.1, Finset.mem_union_left _ hxs⟩)
    · rcases Finset.mem_union.mp hxm with hxm2 | hxS
      · exact hold x
          (Finset.mem_inter.mpr ⟨hx1.1, Finset.mem_union_right _ hxm2⟩)
      · exact hx1.2 hxS
  have h2 : ClassFree (markSafeSet
      (markMineSet st (harvestMines st.knowledge))
      (harvestSafes st.knowledge)) := by
    intro s hs
    obtain ⟨t, ht, rfl⟩ := List.mem_map.mp hs
    rw [Finset.eq_empty_iff_forall_not_mem]
    intro x hx
    rw [Finset.mem_inter] at hx
    obtain ⟨hx1, hx2⟩ := hx
    rw [Finset.mem_sdiff] at hx1
    have hold := h1 t ht
    rw [Finset.eq_empty_iff_forall_not_mem] at hold
    rcases Finset.mem_union.mp hx2 with hxs | hxm
    · rcases Finset.mem_union.mp hxs with hxs2 | hxS
      · exact hold x
          (Finset.mem_inter.mpr ⟨hx1.1, Finset.mem_union_left _ hxs2⟩)
      · exact hx1.2 hxS
    · exact hold x
        (Finset.mem_inter.mpr ⟨hx1.1, Finset.mem_union_right _ hxm⟩)
  have h3 : ClassFree (dropEmpties (markPhase st).1) := by
    intro s hs
    have hs2 := (List.mem_filter.mp hs).1
    exact h2 s hs2
  intro s hs
  have hder := subsetDerive_pres
    (fun t => t.cells ∩ ((markPhase st).1.safes ∪ (markPhase st).1.mines) = ∅)
    (fun s1 s2 hs2 => by
      dsimp only at hs2 ⊢
      rw [Finset.eq_empty_iff_forall_not_mem] at hs2 ⊢
      intro x hx
      rw [Finset.mem_inter] at hx
      exact hs2 x (Finset.mem_inter.mpr
        ⟨(Finset.mem_sdiff.mp hx.1).1, hx.2⟩))
    (dropEmpties (markPhase st).1).knowledge h3 s hs
  exact hder

theorem classFree_ingestPre (st : AIState) (cell : Cell) (count : ℤ)
    (h : ClassFree st) : ClassFree (ingestPre st cell count) := by
  have h2 : ClassFree
      (AIState.markSafe { st with moves_made := insert cell st.moves_made }
        cell) :=
    classFree_markSafe _ cell h
  intro s hs
  have hs2 : s ∈
      (AIState.markSafe { st with moves_made := insert cell st.moves_made }
        cell).knowledge ++
      [⟨(ingestScan
          (AIState.markSafe
            { st with moves_made := insert cell st.moves_made } cell)
          (neighborCells cell) (∅, count)).1,
        (ingestScan
          (AIState.markSafe
            { st with moves_made := insert cell st.moves_made } cell)
          (neighborCells cell) (∅, count)).2⟩] := hs
  rcases List.mem_append.mp hs2 with hsl | hsr
  · exact h2 s hsl
  · rw [List.mem_singleton.mp hsr]
    rw [Finset.eq_empty_iff_forall_not_mem]
    intro x hx
    rw [Finset.mem_inter] at hx
    have hav := ingestScan_avoid
      (AIState.markSafe { st with moves_made := insert cell st.moves_made }
        cell)
      (neighborCells cell) ∅ count
      (fun q hq => absurd hq (Finset.not_mem_empty q)) x hx.1
    rcases Finset.mem_union.mp hx.2 with hxs | hxm
    · exact hav.1 hxs
    · exact hav.2 hxm

theorem classFree_fixLoop :
    ∀ (n : ℕ) (st st' : AIState), ClassFree st → fixLoop n st = some st' →
      ClassFree st' := by
  intro n
  induction n with
  | zero => intro st st' _ h; exact absurd h (by simp [fixLoop])
  | succ n ih =>
      intro st st' hst h
      rw [fixLoop] at h
      by_cases hp : (fixpass st).2
      · rw [if_pos hp] at h
        exact ih _ _ (classFree_fixpass st hst) h
      · rw [if_neg hp] at h
        rw [← Option.some_inj.mp h]
        exact classFree_fixpass st hst

theorem classFree_runOp (st st' : AIState) (op : EngineOp)
    (h0 : ClassFree st) (h : runOp st op = some st') : ClassFree st' := by
  cases op with
  | markMine c =>
      rw [← Option.some_inj.mp h]
      exact classFree_markMine st c h0
  | markSafe c =>
      rw [← Option.some_inj.mp h]
      exact classFree_markSafe st c h0
  | ingest cell count fuel =>
      exact classFree_fixLoop fuel _ st'
        (classFree_ingestPre st cell count h0) h

/-- C10: between engine operations no live sentence mentions a
classified cell — after any operation sequence from a state with that
property, every sentence's cells are disjoint from safes and mines. -/
theorem C10_no_classified_cells_in_knowledge :
    ∀ (ops : List EngineOp) (st st' : AIState), ClassFree st →
      runOps st ops = some st' →
      ∀ s ∈ st'.knowledge, s.cells ∩ (st'.safes ∪ st'.mines) = ∅ := by
  intro ops
  induction ops with
  | nil =>
      intro st st' h0 h
      rw [← Option.some_inj.mp h]
      exact h0
  | cons op rest ih =>
      intro st st' h0 h
      rcases hop : runOp st op with _ | st1
      · rw [runOps, hop] at h
        exact absurd h (by simp)
      · rw [runOps, hop] at h
        exact ih st1 st' (classFree_runOp st st1 op h0 hop) h

/-- Witness for C10 on the 3 by 3 trace ops33. -/
theorem C10_no_classified_cells_witness :
    ClassFree (AIState.init 3 3) ∧
    ∀ s ∈ stDup.knowledge, s.cells ∩ (stDup.safes ∪ stDup.mines) = ∅ :=
  ⟨by decide,
    C10_no_classified_cells_in_knowledge ops33 (AIState.init 3 3) stDup
      (by decide) (by decide)⟩
